import Mathlib

/-
Verification of the leviq durable namespaced FIFO queue (queue.go and
backend/goleveldb/goleveldb.go) against its natural-language specification.

The store is an ordered byte-key/byte-value map; bytes are modelled as
natural numbers and byte strings as lists of naturals.  Parts of the
repository that the two given files reference but that are not part of the
sources (the internal id codec, the id heap, splitKey, and the public Put
wrapper) are modelled from the specification and are marked as such in
their doc comments.
-/

namespace Leviq

/-- A byte string: a list of byte values. -/
abbrev Bytes := List Nat

/-- Modelled from the spec (4.2): width in bytes of the fixed-width,
order-preserving id encoding used by the internal codec, which is not
under the given sources. -/
def idWidth : Nat := 8

/-- Modelled from the spec (4.2): big-endian fixed-width encoding of an id
into w bytes (most significant byte first). -/
def idKeyW : Nat → Nat → Bytes
  | 0, _ => []
  | w + 1, id => (id / 256 ^ w % 256) :: idKeyW w (id % 256 ^ w)

/-- Modelled from the spec (4.2): the key bytes of an id, i.e. ID.Key()
from the internal package. -/
def idKey (id : Nat) : Bytes := idKeyW idWidth id

/-- Numeric value of a big-endian byte string. -/
def keyVal : Bytes → Nat
  | [] => 0
  | d :: r => d * 256 ^ r.length + keyVal r

/-- Modelled from the spec (4.2): internal.KeyToID decodes a fixed-width
key back into an id; a remainder of the wrong width is a decode error. -/
def keyToID (k : Bytes) : Except Unit Nat :=
  if k.length = idWidth then Except.ok (keyVal k) else Except.error ()

/-- Modelled from the spec (4.2): splitKey (used by queue.go) strips the
namespace prefix from a full key, returning a distinguished out-of-range
result (none) when the key does not carry the prefix. -/
def splitKey (ns k : Bytes) : Option Bytes :=
  if ns.isPrefixOf k then some (k.drop ns.length) else none

/-- Modelled from the spec (4.3): the IDHeap, an ordered container of
pending ids; modelled as a sorted list, PushID inserts in order. -/
def pushID (id : Nat) : List Nat → List Nat
  | [] => [id]
  | x :: xs => if id ≤ x then id :: x :: xs else x :: pushID id xs

/-- The persistent key-value store contents: an association list from
full keys to values (the ordered store, iterated by filtering on the
namespace prefix, since keys sharing a prefix are contiguous in byte
order). -/
abbrev Store := List (Bytes × Bytes)

/-- Store lookup by exact key. -/
def storeGet : Store → Bytes → Option Bytes
  | [], _ => none
  | e :: s, k => if e.1 = k then some e.2 else storeGet s k

/-- Store deletion of an exact key. -/
def storeDel : Store → Bytes → Store
  | [], _ => []
  | e :: s, k => if e.1 = k then storeDel s k else e :: storeDel s k

/-- Store insertion, replacing any previous binding of the key. -/
def storePut (s : Store) (k v : Bytes) : Store :=
  (k, v) :: storeDel s k

/- ---------------------------------------------------------------------
goleveldb backend (backend/goleveldb/goleveldb.go)
--------------------------------------------------------------------- -/

/-- Bucket.ForEach: iterates the keys in the range util.BytesPrefix(ns)
— exactly the keys carrying the namespace byte-prefix — and presents
each to the visitor with the prefix stripped (k := kk[len(ns):]).  This
is the list of (key, value) pairs the visitor receives. -/
def forEachKeys (ns : Bytes) (store : Store) : List (Bytes × Bytes) :=
  (store.filter (fun e => ns.isPrefixOf e.1)).map
    (fun e => (e.1.drop ns.length, e.2))

/-- Bucket.Get: prepends the namespace to the caller-supplied key and
reads the underlying store. -/
def bucketGet (ns : Bytes) (store : Store) (k : Bytes) : Option Bytes :=
  storeGet store (ns ++ k)

/-- A staged batch operation on the raw store. -/
inductive BatchOp where
  | put : Bytes → Bytes → BatchOp
  | del : Bytes → BatchOp
  deriving DecidableEq

/-- Batch.Put: stages a put of the namespace-prefixed key. -/
def batchPut (ns : Bytes) (b : List BatchOp) (k v : Bytes) : List BatchOp :=
  b ++ [BatchOp.put (ns ++ k) v]

/-- Batch.Delete: stages a delete of the namespace-prefixed key. -/
def batchDelete (ns : Bytes) (b : List BatchOp) (k : Bytes) : List BatchOp :=
  b ++ [BatchOp.del (ns ++ k)]

/-- Applying one staged operation to the store. -/
def applyOp (s : Store) : BatchOp → Store
  | BatchOp.put k v => storePut s k v
  | BatchOp.del k => storeDel s k

/-- Batch.Write: applies the staged operations in order. -/
def applyBatch (s : Store) (b : List BatchOp) : Store :=
  b.foldl applyOp s

/-- Bucket.Clear as written in goleveldb.go: it iterates the keys in the
namespace range, but stages the delete of the STRIPPED key
(k := kk[len(ns):]; b.Delete(k)) on the raw batch rather than the full
key kk. -/
def bucketClear (ns : Bytes) (store : Store) : Store :=
  applyBatch store
    (((store.filter (fun e => ns.isPrefixOf e.1)).map
        (fun e => e.1.drop ns.length)).map BatchOp.del)

/-- The scan loop of Queue.Clear in queue.go, with explicit fuel.  The
iterator position (the list of keys from the Seek position onward) is
the loop state; the loop body tests splitKey and stages a delete, but
the source never calls it.Next(), so the position never changes.  The
result is the staged batch, or none when the fuel is exhausted. -/
def queueClearScan (ns : Bytes) : Nat → List Bytes → Option (List BatchOp)
  | 0, _ => none
  | _ + 1, [] => some []
  | fuel + 1, k :: ks =>
    match splitKey ns k with
    | none => some []
    | some _ => queueClearScan ns fuel (k :: ks)

/- ---------------------------------------------------------------------
Queue coordinator (queue.go)
--------------------------------------------------------------------- -/

/-- The levigo database handle seen by queue.go: the store contents plus
the set of keys on which a read currently fails with an I/O error (the
store engine may fail any read; Get on a merely missing key returns nil
without error). -/
structure LDB where
  store : Store
  fails : List Bytes
  deriving DecidableEq

/-- db.Get: an I/O error on a failing key, otherwise the value if the
key is present. -/
def dbGet (db : LDB) (k : Bytes) : Except Unit (Option Bytes) :=
  if k ∈ db.fails then Except.error () else Except.ok (storeGet db.store k)

/-- One resolution of the select in awaitKeys: either the availability
channel fired (sig) or the timer channel fired (timeout). -/
inductive Ev where
  | sig : Ev
  | timeout : Ev
  deriving DecidableEq

/-- Queue.awaitKeys over a schedule of select resolutions: on a signal it
pops the least id from the heap and appends its key, returning once n
keys are collected; on the timeout (time.AfterFunc fires once, closing
the cancel channel) it returns the keys collected so far.  none means
the call has not returned under the given schedule (still blocked), or
the schedule was not realizable (a signal with an empty heap, which the
push-then-signal invariant rules out). -/
def awaitKeysT (n : Nat) : List Ev → List Nat → List Bytes →
    Option (List Bytes × List Nat)
  | [], _, _ => none
  | Ev.timeout :: _, heap, acc => some (acc.reverse, heap)
  | Ev.sig :: evs, heap, acc =>
    match heap with
    | [] => none
    | id :: h =>
      if (idKey id :: acc).length = n then some ((idKey id :: acc).reverse, h)
      else awaitKeysT n evs h (idKey id :: acc)

/-- The result quadruple of Queue.take: ids, keys, values and the error
flag (err is true when the Go function returns a non-nil error). -/
structure TakeRes where
  ids : List Nat
  keys : List Bytes
  values : List (Option Bytes)
  err : Bool
  deriving DecidableEq

/-- The fetch loop of Queue.take over the popped keys: each value is read
at the namespace-joined key; a read error aborts the whole loop (none);
each key is decoded by KeyToID, whose error is only kept from the LAST
iteration (the Go code overwrites err on every iteration and never
checks the KeyToID error inside the loop; its zero ID stands in on a
decode error). -/
def takeAux (db : LDB) (ns : Bytes) :
    List Bytes → Option (List Nat × List (Option Bytes) × Bool)
  | [] => some ([], [], false)
  | k :: rest =>
    match dbGet db (ns ++ k) with
    | Except.error _ => none
    | Except.ok v =>
      match takeAux db ns rest with
      | none => none
      | some (ids, vals, lastErr) =>
        some ((match keyToID k with
               | Except.ok id => id
               | Except.error _ => 0) :: ids,
          v :: vals,
          match rest with
          | [] =>
            match keyToID k with
            | Except.ok _ => false
            | Except.error _ => true
          | _ :: _ => lastErr)

/-- Queue.take after awaitKeys has produced the popped keys: on a read
error the Go code returns nil, nil, nil, err — discarding the popped
ids; otherwise it returns the ids, keys, values and the residual
decode-error flag. -/
def takeFromKeys (db : LDB) (ns : Bytes) (keys : List Bytes) : TakeRes :=
  match takeAux db ns keys with
  | none => ⟨[], [], [], true⟩
  | some (ids, vals, lastErr) => ⟨ids, keys, vals, lastErr⟩

/-- Queue.take: awaitKeys pops up to n keys under the schedule, then the
values are fetched; the second component is the heap left after the
pops (the popped ids are never pushed back by take). -/
def takeQ (db : LDB) (ns : Bytes) (n : Nat) (evs : List Ev)
    (heap : List Nat) : Option (TakeRes × List Nat) :=
  (awaitKeysT n evs heap []).map (fun r => (takeFromKeys db ns r.1, r.2))

/-- Queue.awaitKey with t = 0: the select takes the availability channel
when a signal is immediately pending (popping the least id), and
otherwise the default branch returns nil at once — the explicit
non-blocking path of the source.  The result is the key (if any), the
remaining heap and the remaining signal count. -/
def awaitKey0 (heap : List Nat) (sig : Nat) : Option Bytes × List Nat × Nat :=
  if 0 < sig then
    match heap with
    | [] => (none, [], sig - 1)
    | id :: h => (some (idKey id), h, sig - 1)
  else (none, heap, sig)

/- ---------------------------------------------------------------------
Sequential put model and recovery scan
--------------------------------------------------------------------- -/

/-- Sequential queue state: the durable store, the id heap and the next
id of the monotonic counter. -/
structure SState where
  store : Store
  heap : List Nat
  ctr : Nat
  deriving DecidableEq

/-- Modelled from the spec (4.4, 9): Put, whose public wrapper is not
under the given sources — allocate the next id from the serialized
counter, write key to value durably under the namespace, push the id
onto the heap (Queue.putKey in queue.go). -/
def doPut (ns : Bytes) (s : SState) (p : Bytes) : SState :=
  ⟨storePut s.store (ns ++ idKey s.ctr) p, pushID s.ctr s.heap, s.ctr + 1⟩

/-- N sequential Puts. -/
def doPuts (ns : Bytes) : SState → List Bytes → SState
  | s, [] => s
  | s, p :: ps => doPuts ns (doPut ns s p) ps

/-- The ids c, c+1, ..., c+n-1 in order. -/
def seqIDs : Nat → Nat → List Nat
  | _, 0 => []
  | c, n + 1 => c :: seqIDs (c + 1) n

/-- The namespace range scan of Queue.init: the iterator Seeks to the
namespace and walks forward until splitKey reports out-of-range; over
the byte-ordered store this visits exactly the keys carrying the
prefix, here with the prefix stripped. -/
def nsKeys (ns : Bytes) (store : Store) : List Bytes :=
  (store.filter (fun e => ns.isPrefixOf e.1)).map
    (fun e => e.1.drop ns.length)

/-- The loop of Queue.init over the stripped keys: decode each key, abort
with the decode error, otherwise push the id and emit one availability
signal (q.c receives one unit per recovered item). -/
def initAux : List Bytes → List Nat → Nat → Except Unit (List Nat × Nat)
  | [], h, sig => Except.ok (h, sig)
  | k :: ks, h, sig =>
    match keyToID k with
    | Except.error e => Except.error e
    | Except.ok id => initAux ks (pushID id h) (sig + 1)

/-- Queue.init: populate the heap and the availability channel from the
persisted namespace range, starting empty. -/
def initQ (ns : Bytes) (store : Store) : Except Unit (List Nat × Nat) :=
  initAux (nsKeys ns store) [] 0

/- ---------------------------------------------------------------------
Concurrent availability-signal protocol (putKey / awaitKey / awaitKeys)
--------------------------------------------------------------------- -/

/-- Concurrent coordination state of one Queue: the id heap, the number
of signal units sitting in the availability channel, and the number of
waiters that have consumed a signal but not yet performed their
mutex-guarded pop. -/
structure CState where
  heap : List Nat
  sig : Nat
  pending : Nat
  deriving DecidableEq

/-- The atomic steps of the queue coordination protocol as implemented:
put is Queue.putKey's mutex-held push-then-send (also Queue.init's
pre-publication push-then-send); recv is a waiter receiving from the
availability channel in awaitKey/awaitKeys; pop is the subsequent
mutex-held PopID. -/
inductive QStep : CState → CState → Prop
  | put (s : CState) (id : Nat) :
      QStep s ⟨pushID id s.heap, s.sig + 1, s.pending⟩
  | recv (s : CState) : 0 < s.sig →
      QStep s ⟨s.heap, s.sig - 1, s.pending + 1⟩
  | pop (s : CState) : 0 < s.pending →
      QStep s ⟨s.heap.tail, s.sig, s.pending - 1⟩

/-- States reachable from the freshly constructed queue (empty heap, no
signals, no waiters). -/
def QReachable (s : CState) : Prop :=
  Relation.ReflTransGen QStep ⟨[], 0, 0⟩ s

/- ---------------------------------------------------------------------
Helper lemmas: codec
--------------------------------------------------------------------- -/

theorem idKeyW_length (w id : Nat) : (idKeyW w id).length = w := by
  induction w generalizing id with
  | zero => rfl
  | succ w ih => simp [idKeyW, ih]

theorem keyVal_idKeyW (w id : Nat) : keyVal (idKeyW w id) = id % 256 ^ w := by
  induction w generalizing id with
  | zero => simp [idKeyW, keyVal, Nat.mod_one]
  | succ w ih =>
    have hlen : (idKeyW w (id % 256 ^ w)).length = w := idKeyW_length w _
    have hmm : id % 256 ^ w % 256 ^ w = id % 256 ^ w :=
      Nat.mod_mod_of_dvd id dvd_rfl
    calc keyVal (idKeyW (w + 1) id)
        = id / 256 ^ w % 256 * 256 ^ w + keyVal (idKeyW w (id % 256 ^ w)) := by
          simp [idKeyW, keyVal, hlen]
      _ = id / 256 ^ w % 256 * 256 ^ w + id % 256 ^ w := by rw [ih, hmm]
      _ = id % 256 ^ (w + 1) := by
          rw [pow_succ, Nat.mod_mul]; ring

theorem idKey_length (id : Nat) : (idKey id).length = idWidth :=
  idKeyW_length idWidth id

theorem keyVal_idKey (id : Nat) (h : id < 256 ^ idWidth) :
    keyVal (idKey id) = id := by
  rw [idKey, keyVal_idKeyW, Nat.mod_eq_of_lt h]

theorem keyToID_idKey (id : Nat) (h : id < 256 ^ idWidth) :
    keyToID (idKey id) = Except.ok id := by
  rw [keyToID, if_pos (idKey_length id), keyVal_idKey id h]

theorem idKey_inj (a b : Nat) (ha : a < 256 ^ idWidth) (hb : b < 256 ^ idWidth)
    (h : idKey a = idKey b) : a = b := by
  have := congrArg keyVal h
  rwa [keyVal_idKey a ha, keyVal_idKey b hb] at this

/- ---------------------------------------------------------------------
Helper lemmas: heap
--------------------------------------------------------------------- -/

theorem pushID_length (id : Nat) (h : List Nat) :
    (pushID id h).length = h.length + 1 := by
  induction h with
  | nil => rfl
  | cons x xs ih =>
    by_cases hx : id ≤ x <;> simp [pushID, hx, ih]

theorem pushID_coe (id : Nat) (h : List Nat) :
    ((pushID id h : List Nat) : Multiset Nat) = id ::ₘ (h : Multiset Nat) := by
  induction h with
  | nil => rfl
  | cons x xs ih =>
    by_cases hx : id ≤ x
    · simp [pushID, hx]
    · simp only [pushID, if_neg hx]
      rw [← Multiset.cons_coe, ← Multiset.cons_coe, ih, Multiset.cons_swap]

theorem pushID_append_of_lt (id : Nat) (h : List Nat)
    (hlt : ∀ y ∈ h, y < id) : pushID id h = h ++ [id] := by
  induction h with
  | nil => rfl
  | cons x xs ih =>
    have hx : ¬ id ≤ x := by
      have := hlt x (by simp)
      omega
    simp only [pushID, if_neg hx, List.cons_append, List.cons.injEq, true_and]
    exact ih (fun y hy => hlt y (by simp [hy]))

/- ---------------------------------------------------------------------
Helper lemmas: store
--------------------------------------------------------------------- -/

theorem storeGet_del_ne (s : Store) (k k2 : Bytes) (h : k2 ≠ k) :
    storeGet (storeDel s k) k2 = storeGet s k2 := by
  induction s with
  | nil => rfl
  | cons e s ih =>
    by_cases he : e.1 = k
    · have he2 : e.1 ≠ k2 := by rw [he]; exact fun hk => h hk.symm
      rw [storeDel, if_pos he, ih]
      simp [storeGet, he2]
    · rw [storeDel, if_neg he]
      by_cases he2 : e.1 = k2 <;> simp [storeGet, he2, ih]

theorem storeGet_put_self (s : Store) (k v : Bytes) :
    storeGet (storePut s k v) k = some v := by
  simp [storePut, storeGet]

theorem storeGet_put_ne (s : Store) (k v k2 : Bytes) (h : k2 ≠ k) :
    storeGet (storePut s k v) k2 = storeGet s k2 := by
  have hk : k ≠ k2 := fun hk => h hk.symm
  simp [storePut, storeGet, hk]
  exact storeGet_del_ne s k k2 h

theorem storeGet_eq_none (s : Store) (k : Bytes)
    (h : ∀ e ∈ s, e.1 ≠ k) : storeGet s k = none := by
  induction s with
  | nil => rfl
  | cons e s ih =>
    have he : e.1 ≠ k := h e (by simp)
    simp only [storeGet, if_neg he]
    exact ih (fun e2 he2 => h e2 (by simp [he2]))

/- ---------------------------------------------------------------------
Helper lemmas: byte-prefix reasoning
--------------------------------------------------------------------- -/

theorem not_prefix_append (a b k : Bytes) (h1 : ¬ a <+: b) (h2 : ¬ b <+: a) :
    ¬ b <+: (a ++ k) := by
  intro h
  rcases Nat.le_total b.length a.length with hle | hle
  · exact h2 (List.prefix_of_prefix_length_le h (List.prefix_append a k) hle)
  · exact h1 (List.prefix_of_prefix_length_le (List.prefix_append a k) h hle)

theorem prefix_append_drop (ns k : Bytes) (h : ns.isPrefixOf k = true) :
    ns ++ k.drop ns.length = k := by
  rcases List.isPrefixOf_iff_prefix.mp h with ⟨t, rfl⟩
  rw [List.drop_left]

/- ---------------------------------------------------------------------
Helper lemmas: awaitKeys schedules
--------------------------------------------------------------------- -/

theorem awaitKeysT_all_sigs :
    ∀ (h : List Nat) (acc : List Bytes), h ≠ [] →
      awaitKeysT (acc.length + h.length) (List.replicate h.length Ev.sig) h acc
        = some (acc.reverse ++ h.map idKey, []) := by
  intro h
  induction h with
  | nil => intro acc hne; exact absurd rfl hne
  | cons x xs ih =>
    intro acc _
    rw [List.length_cons, List.replicate_succ]
    by_cases hxs : xs = []
    · subst hxs
      simp [awaitKeysT]
    · have hcond : ¬ ((idKey x :: acc).length = acc.length + (xs.length + 1)) := by
        have : xs.length ≠ 0 := fun hz => hxs (List.eq_nil_of_length_eq_zero hz)
        simp only [List.length_cons]
        omega
      have harith : (idKey x :: acc).length + xs.length
          = acc.length + (xs.length + 1) := by
        simp only [List.length_cons]; omega
      have hrec := ih (idKey x :: acc) hxs
      rw [harith] at hrec
      simp only [awaitKeysT, if_neg hcond, hrec, List.map_cons,
        List.reverse_cons, List.append_assoc, List.singleton_append]

theorem awaitKeysT_sigs_timeout :
    ∀ (k : Nat) (heap : List Nat) (acc : List Bytes) (n : Nat) (evs : List Ev),
      acc.length + k < n → k ≤ heap.length →
      awaitKeysT n (List.replicate k Ev.sig ++ Ev.timeout :: evs) heap acc
        = some (acc.reverse ++ (heap.take k).map idKey, heap.drop k) := by
  intro k
  induction k with
  | zero =>
    intro heap acc n evs h1 h2
    simp [awaitKeysT]
  | succ k ih =>
    intro heap acc n evs h1 h2
    match heap with
    | [] => simp at h2
    | x :: hs =>
      rw [List.replicate_succ, List.cons_append]
      have hcond : ¬ ((idKey x :: acc).length = n) := by
        simp only [List.length_cons]; omega
      have hrec := ih hs (idKey x :: acc) n evs
        (by simp only [List.length_cons]; omega)
        (by simpa using h2)
      simp only [awaitKeysT, if_neg hcond, hrec, List.take_succ_cons,
        List.drop_succ_cons, List.map_cons, List.reverse_cons,
        List.append_assoc, List.singleton_append]

theorem awaitKeysT_sound :
    ∀ (evs : List Ev) (n : Nat) (heap : List Nat) (acc keys : List Bytes)
      (h2 : List Nat),
      awaitKeysT n evs heap acc = some (keys, h2) →
      (∀ k ∈ acc, k.length = idWidth) → acc.length < n →
      (∀ k ∈ keys, k.length = idWidth) ∧ keys.length ≤ n := by
  intro evs
  induction evs with
  | nil =>
    intro n heap acc keys h2 heq _ _
    simp [awaitKeysT] at heq
  | cons e evs ih =>
    intro n heap acc keys h2 heq hacc hlen
    cases e with
    | timeout =>
      simp only [awaitKeysT, Option.some.injEq, Prod.mk.injEq] at heq
      obtain ⟨hk, _⟩ := heq
      subst hk
      refine ⟨fun k hk2 => hacc k (List.mem_reverse.mp hk2), ?_⟩
      rw [List.length_reverse]
      omega
    | sig =>
      cases heap with
      | nil => simp [awaitKeysT] at heq
      | cons x hs =>
        by_cases hcond : (idKey x :: acc).length = n
        · simp only [awaitKeysT, if_pos hcond, Option.some.injEq,
            Prod.mk.injEq] at heq
          obtain ⟨hk, _⟩ := heq
          subst hk
          constructor
          · intro k hk2
            rcases List.mem_cons.mp (List.mem_reverse.mp hk2) with h | h
            · rw [h]; exact idKey_length x
            · exact hacc k h
          · rw [List.length_reverse, hcond]
        · simp only [awaitKeysT, if_neg hcond] at heq
          refine ih n hs (idKey x :: acc) keys h2 heq ?_ ?_
          · intro k hk2
            rcases List.mem_cons.mp hk2 with h | h
            · rw [h]; exact idKey_length x
            · exact hacc k h
          · simp only [List.length_cons] at hcond ⊢
            omega

/- ---------------------------------------------------------------------
Helper lemmas: the take fetch loop
--------------------------------------------------------------------- -/

theorem takeAux_ok (db : LDB) (ns : Bytes) :
    ∀ keys : List Bytes, (∀ k ∈ keys, (ns ++ k) ∉ db.fails) →
      (∀ k ∈ keys, k.length = idWidth) →
      takeAux db ns keys
        = some (keys.map keyVal,
            keys.map (fun k => storeGet db.store (ns ++ k)), false) := by
  intro keys
  induction keys with
  | nil => intro _ _; rfl
  | cons k rest ih =>
    intro hf hl
    have hf1 : (ns ++ k) ∉ db.fails := hf k (by simp)
    have hl1 : k.length = idWidth := hl k (by simp)
    have hrec := ih (fun k2 hk2 => hf k2 (by simp [hk2]))
      (fun k2 hk2 => hl k2 (by simp [hk2]))
    simp only [takeAux, dbGet, if_neg hf1, hrec, keyToID, if_pos hl1,
      List.map_cons]
    cases rest <;> rfl

theorem takeAux_values_none (db : LDB) (ns : Bytes)
    (hget : ∀ k : Bytes, storeGet db.store (ns ++ k) = none) :
    ∀ (keys : List Bytes) (ids : List Nat) (vals : List (Option Bytes))
      (lastErr : Bool),
      takeAux db ns keys = some (ids, vals, lastErr) →
      ∀ v ∈ vals, v = none := by
  intro keys
  induction keys with
  | nil =>
    intro ids vals lastErr heq v hv
    simp only [takeAux, Option.some.injEq, Prod.mk.injEq] at heq
    obtain ⟨_, hvals, _⟩ := heq
    rw [← hvals] at hv
    simp at hv
  | cons k rest ih =>
    intro ids vals lastErr heq v hv
    by_cases hmem : (ns ++ k) ∈ db.fails
    · simp only [takeAux, dbGet, if_pos hmem] at heq
      simp at heq
    · simp only [takeAux, dbGet, if_neg hmem] at heq
      cases htA : takeAux db ns rest with
      | none => rw [htA] at heq; simp at heq
      | some t =>
        obtain ⟨ids2, vals2, l2⟩ := t
        rw [htA] at heq
        simp only [Option.some.injEq, Prod.mk.injEq] at heq
        obtain ⟨_, hvals, _⟩ := heq
        rw [← hvals] at hv
        rcases List.mem_cons.mp hv with h | h
        · rw [h]; exact hget k
        · exact ih ids2 vals2 l2 htA v h

theorem takeAux_fail (db : LDB) (ns : Bytes) :
    ∀ keys : List Bytes, (∃ k ∈ keys, (ns ++ k) ∈ db.fails) →
      takeAux db ns keys = none := by
  intro keys
  induction keys with
  | nil => rintro ⟨k, hk, _⟩; simp at hk
  | cons k rest ih =>
    rintro ⟨k2, hk2, hf⟩
    by_cases hk : (ns ++ k) ∈ db.fails
    · simp [takeAux, dbGet, hk]
    · have hk2r : k2 ∈ rest := by
        rcases List.mem_cons.mp hk2 with h | h
        · rw [h] at hf; exact absurd hf hk
        · exact h
      simp [takeAux, dbGet, hk, ih ⟨k2, hk2r, hf⟩]

/- ---------------------------------------------------------------------
Helper lemmas: sequential puts
--------------------------------------------------------------------- -/

theorem seqIDs_length (n : Nat) : ∀ c, (seqIDs c n).length = n := by
  induction n with
  | zero => intro c; rfl
  | succ n ih => intro c; simp [seqIDs, ih]

theorem seqIDs_mem (n : Nat) :
    ∀ c id, id ∈ seqIDs c n → c ≤ id ∧ id < c + n := by
  induction n with
  | zero => intro c id h; simp [seqIDs] at h
  | succ n ih =>
    intro c id h
    rcases List.mem_cons.mp h with h | h
    · omega
    · have := ih (c + 1) id h
      omega

theorem doPuts_ctr (ns : Bytes) :
    ∀ (ps : List Bytes) (s : SState), (doPuts ns s ps).ctr = s.ctr + ps.length := by
  intro ps
  induction ps with
  | nil => intro s; rfl
  | cons p ps ih =>
    intro s
    rw [doPuts, ih]
    simp [doPut]
    omega

theorem doPuts_heap (ns : Bytes) :
    ∀ (ps : List Bytes) (s : SState), (∀ y ∈ s.heap, y < s.ctr) →
      (doPuts ns s ps).heap = s.heap ++ seqIDs s.ctr ps.length := by
  intro ps
  induction ps with
  | nil => intro s _; simp [doPuts, seqIDs]
  | cons p ps ih =>
    intro s hy
    have hpush : (doPut ns s p).heap = s.heap ++ [s.ctr] :=
      pushID_append_of_lt s.ctr s.heap hy
    have hall : ∀ y ∈ (doPut ns s p).heap, y < (doPut ns s p).ctr := by
      rw [hpush]
      intro y hy2
      rcases List.mem_append.mp hy2 with h | h
      · have := hy y h; simp [doPut]; omega
      · simp at h; simp [doPut, h]
    rw [doPuts, ih (doPut ns s p) hall, hpush]
    show s.heap ++ [s.ctr] ++ seqIDs (s.ctr + 1) ps.length
        = s.heap ++ seqIDs s.ctr (ps.length + 1)
    rw [List.append_assoc, List.singleton_append]
    rfl

theorem doPuts_store_stable (ns : Bytes) :
    ∀ (ps : List Bytes) (s : SState) (k : Bytes),
      (∀ j, j < ps.length → k ≠ ns ++ idKey (s.ctr + j)) →
      storeGet (doPuts ns s ps).store k = storeGet s.store k := by
  intro ps
  induction ps with
  | nil => intro s k _; rfl
  | cons p ps ih =>
    intro s k hk
    rw [doPuts, ih (doPut ns s p) k (fun j hj => by
      have := hk (j + 1) (by simp; omega)
      simpa [doPut, Nat.add_assoc, Nat.add_comm 1 j] using this)]
    exact storeGet_put_ne s.store (ns ++ idKey s.ctr) p k
      (by simpa using hk 0 (by simp))

theorem doPuts_get (ns : Bytes) :
    ∀ (ps : List Bytes) (s : SState) (i : Nat), i < ps.length →
      s.ctr + ps.length ≤ 256 ^ idWidth →
      storeGet (doPuts ns s ps).store (ns ++ idKey (s.ctr + i)) = ps[i]? := by
  intro ps
  induction ps with
  | nil => intro s i hi _; simp at hi
  | cons p ps ih =>
    intro s i hi hb
    cases i with
    | zero =>
      rw [doPuts]
      have hstable : storeGet (doPuts ns (doPut ns s p) ps).store
          (ns ++ idKey (s.ctr + 0))
          = storeGet (doPut ns s p).store (ns ++ idKey (s.ctr + 0)) := by
        apply doPuts_store_stable
        intro j hj heq
        have heq2 : idKey (s.ctr + 0) = idKey ((doPut ns s p).ctr + j) :=
          List.append_cancel_left heq
        have hc1 : s.ctr + 0 < 256 ^ idWidth := by
          simp only [List.length_cons] at hb; omega
        have hc2 : (doPut ns s p).ctr + j < 256 ^ idWidth := by
          simp only [doPut, List.length_cons] at hb ⊢; omega
        have := idKey_inj _ _ hc1 hc2 heq2
        simp only [doPut] at this
        omega
      rw [hstable, List.getElem?_cons_zero]
      show storeGet (storePut s.store (ns ++ idKey s.ctr) p)
          (ns ++ idKey (s.ctr + 0)) = some p
      rw [Nat.add_zero]
      exact storeGet_put_self s.store (ns ++ idKey s.ctr) p
    | succ i2 =>
      rw [doPuts]
      have harith : s.ctr + (i2 + 1) = (doPut ns s p).ctr + i2 := by
        simp [doPut]; omega
      rw [harith,
        ih (doPut ns s p) i2 (by simp only [List.length_cons] at hi; omega)
          (by simp only [doPut, List.length_cons] at hb ⊢; omega),
        List.getElem?_cons_succ]

theorem map_keyVal_idKey :
    ∀ l : List Nat, (∀ id ∈ l, id < 256 ^ idWidth) →
      (l.map idKey).map keyVal = l := by
  intro l
  induction l with
  | nil => intro _; rfl
  | cons x xs ih =>
    intro hl
    simp only [List.map_cons, keyVal_idKey x (hl x (by simp)),
      ih (fun id hid => hl id (by simp [hid])), List.cons.injEq, and_self]

theorem seqIDs_map_values (g : Nat → Option Bytes) :
    ∀ (ps : List Bytes) (c : Nat),
      (∀ i, i < ps.length → g (c + i) = ps[i]?) →
      (seqIDs c ps.length).map g = ps.map some := by
  intro ps
  induction ps with
  | nil => intro c _; rfl
  | cons p ps ih =>
    intro c hg
    show (c :: seqIDs (c + 1) ps.length).map g = some p :: ps.map some
    rw [List.map_cons]
    have h0 := hg 0 (by simp)
    rw [Nat.add_zero] at h0
    rw [h0, ih (c + 1) (fun i hi => by
      have := hg (i + 1) (by simp; omega)
      simpa [Nat.add_assoc, Nat.add_comm 1 i] using this),
      List.getElem?_cons_zero]

/- ---------------------------------------------------------------------
Helper lemmas: the init scan
--------------------------------------------------------------------- -/

theorem initAux_ok :
    ∀ (ks : List Bytes) (h : List Nat) (sig : Nat),
      (∀ k ∈ ks, k.length = idWidth) →
      ∃ H, initAux ks h sig = Except.ok (H, sig + ks.length) ∧
        (H : Multiset Nat) = (h : Multiset Nat) + ((ks.map keyVal : List Nat) : Multiset Nat) := by
  intro ks
  induction ks with
  | nil =>
    intro h sig _
    exact ⟨h, rfl, by simp⟩
  | cons k ks ih =>
    intro h sig hl
    have hl1 : k.length = idWidth := hl k (by simp)
    obtain ⟨H, heq, hmul⟩ := ih (pushID (keyVal k) h) (sig + 1)
      (fun k2 hk2 => hl k2 (by simp [hk2]))
    refine ⟨H, ?_, ?_⟩
    · simp only [initAux, keyToID, if_pos hl1, heq, List.length_cons]
      rw [Nat.add_assoc, Nat.add_comm 1 ks.length]
    · rw [hmul, pushID_coe, List.map_cons, ← Multiset.cons_coe,
        Multiset.cons_add, Multiset.add_cons]

theorem initAux_err :
    ∀ (ks : List Bytes) (h : List Nat) (sig : Nat),
      (∃ k ∈ ks, k.length ≠ idWidth) →
      ∃ e, initAux ks h sig = Except.error e := by
  intro ks
  induction ks with
  | nil => rintro h sig ⟨k, hk, _⟩; simp at hk
  | cons k ks ih =>
    rintro h sig ⟨k2, hk2, hne⟩
    by_cases hk : k.length = idWidth
    · have hk2r : k2 ∈ ks := by
        rcases List.mem_cons.mp hk2 with h2 | h2
        · rw [h2] at hne; exact absurd hk hne
        · exact h2
      obtain ⟨e, he⟩ := ih (pushID (keyVal k) h) (sig + 1) ⟨k2, hk2r, hne⟩
      exact ⟨e, by simp only [initAux, keyToID, if_pos hk, he]⟩
    · exact ⟨(), by simp only [initAux, keyToID, if_neg hk]⟩

/- ---------------------------------------------------------------------
Claim theorems
--------------------------------------------------------------------- -/

/-- C1: the claim that Queue.Clear terminates and leaves no key with the
namespace prefix fails on the code.  First part: the scan loop of
Queue.Clear in queue.go never advances the iterator, so on a store whose
first visible key [1, 2] lies in namespace [1] the loop never finishes,
for any amount of fuel.  Second part: goleveldb's Bucket.Clear deletes
the prefix-stripped key instead of the full key, so after Clear the
namespaced key [1, 2] is still present with its value. -/
theorem clear_leaves_namespace_key :
    (∀ fuel, queueClearScan [1] fuel [[1, 2]] = none) ∧
    bucketClear [1] [([1, 2], [7])] = [([1, 2], [7])] ∧
    storeGet (bucketClear [1] [([1, 2], [7])]) [1, 2] = some [7] := by
  refine ⟨?_, by decide, by decide⟩
  intro fuel
  induction fuel with
  | zero => rfl
  | succ n ih =>
    have hsk : splitKey [1] [1, 2] = some [2] := by decide
    simp only [queueClearScan, hsk]
    exact ih

/-- C3 counterexample: an item put under namespace [97, 98] is observed
by ForEach on the distinct namespace [97], because the byte encoding of
[97] is a proper prefix of that of [97, 98] and the prefix-range scan
crosses into it.  This falsifies the claim that an item put under one
namespace is never observable from another. -/
theorem cross_namespace_observe_cex :
    forEachKeys [97] (applyBatch [] (batchPut [97, 98] [] (idKey 0) [42]))
      = [([98] ++ idKey 0, [42])] ∧ ([97, 98] : Bytes) ≠ [97] := by
  constructor
  · decide
  · decide

/-- C3 (amended): namespace isolation holds exactly when neither
namespace's byte encoding is a byte-prefix of the other's: for every
store whose keys all lie under namespace a, nothing is observable on
namespace b through any of the three channels — ForEach on b visits
nothing, Get on b returns not-found for every key, and Take on b never
yields an item of a: recovery of a queue on b finds no ids (so its heap
starts empty), and a take on b, whatever its heap, schedule and failing
keys, returns only not-found values, since it reads only b-prefixed
keys. -/
theorem namespace_isolation_sound (a b : Bytes) (store : Store)
    (h1 : ¬ a <+: b) (h2 : ¬ b <+: a)
    (hstore : ∀ e ∈ store, ∃ x : Bytes, e.1 = a ++ x) :
    forEachKeys b store = [] ∧
    (∀ k, bucketGet b store k = none) ∧
    initQ b store = Except.ok ([], 0) ∧
    ∀ (fails : List Bytes) (n : Nat) (evs : List Ev) (heap h2b : List Nat)
      (res : TakeRes),
      takeQ ⟨store, fails⟩ b n evs heap = some (res, h2b) →
      ∀ v ∈ res.values, v = none := by
  have hf : store.filter (fun e => b.isPrefixOf e.1) = [] := by
    rw [List.filter_eq_nil_iff]
    intro e he
    obtain ⟨x, hx⟩ := hstore e he
    rw [hx]
    simp only [Bool.not_eq_true]
    rw [← Bool.not_eq_true]
    intro hb
    exact not_prefix_append a b x h1 h2 ( List.isPrefixOf_iff_prefix.mp hb)
  have hget : ∀ k, storeGet store (b ++ k) = none := by
    intro k
    apply storeGet_eq_none
    intro e he heq
    obtain ⟨x, hx⟩ := hstore e he
    rw [hx] at heq
    exact not_prefix_append a b x h1 h2 ⟨k, heq.symm⟩
  refine ⟨?_, hget, ?_, ?_⟩
  · rw [forEachKeys, hf]
    rfl
  · have hnsk : nsKeys b store = [] := by
      rw [nsKeys, hf]
      rfl
    rw [initQ, hnsk]
    rfl
  · intro fails n evs heap h2b res hteq v hv
    rw [takeQ] at hteq
    cases hA : awaitKeysT n evs heap [] with
    | none => rw [hA] at hteq; simp at hteq
    | some r =>
      rw [hA] at hteq
      obtain ⟨keys, hh⟩ := r
      simp only [Option.map_some', Option.some.injEq, Prod.mk.injEq] at hteq
      obtain ⟨hres, _⟩ := hteq
      cases htA : takeAux ⟨store, fails⟩ b keys with
      | none =>
        simp only [takeFromKeys, htA] at hres
        rw [← hres] at hv
        simp at hv
      | some t =>
        obtain ⟨ids, vals, lastErr⟩ := t
        simp only [takeFromKeys, htA] at hres
        rw [← hres] at hv
        exact takeAux_values_none ⟨store, fails⟩ b hget keys ids vals lastErr
          htA v hv

/-- Witness for the amended C3 theorem at a concrete pair of
non-prefix namespaces. -/
theorem namespace_isolation_sound_witness :
    forEachKeys [2] [([1] ++ idKey 0, [5])] = [] := by
  refine (namespace_isolation_sound [1] [2] [([1] ++ idKey 0, [5])]
    (by decide) (by decide) ?_).1
  intro e he
  rw [List.mem_singleton] at he
  exact ⟨idKey 0, by rw [he]⟩

/-- C10: the goleveldb Bucket operations present namespace-relative keys:
every store entry carrying the namespace prefix is presented to the
ForEach visitor with the prefix stripped, every visited pair comes from
a store entry recovered by re-prepending the namespace, and Get,
Batch.Put and Batch.Delete address the underlying store at the
namespace-prefixed key. -/
theorem bucket_ns_relative (ns : Bytes) (store : Store) (b : List BatchOp)
    (k v : Bytes) :
    (∀ kk vv, (kk, vv) ∈ store → ns.isPrefixOf kk = true →
        (kk.drop ns.length, vv) ∈ forEachKeys ns store) ∧
    (∀ p ∈ forEachKeys ns store, (ns ++ p.1, p.2) ∈ store) ∧
    bucketGet ns store k = storeGet store (ns ++ k) ∧
    batchPut ns b k v = b ++ [BatchOp.put (ns ++ k) v] ∧
    batchDelete ns b k = b ++ [BatchOp.del (ns ++ k)] := by
  refine ⟨?_, ?_, rfl, rfl, rfl⟩
  · intro kk vv hmem hpre
    rw [forEachKeys]
    exact List.mem_map.mpr ⟨(kk, vv), List.mem_filter.mpr ⟨hmem, hpre⟩, rfl⟩
  · intro p hp
    rw [forEachKeys] at hp
    obtain ⟨e, he, hpe⟩ := List.mem_map.mp hp
    have hef := List.mem_filter.mp he
    have hdrop : ns ++ e.1.drop ns.length = e.1 :=
      prefix_append_drop ns e.1 hef.2
    rw [← hpe]
    simpa [hdrop] using hef.1

/-- Witness for C10 at a concrete store entry. -/
theorem bucket_ns_relative_witness :
    ([2], [9]) ∈ forEachKeys [1] [([1, 2], [9])] :=
  (bucket_ns_relative [1] [([1, 2], [9])] [] [5] [6]).1 [1, 2] [9]
    (by decide) (by decide)

/-- C2 counterexample: with id 5 popped for namespace [1] and the store
read failing on its key, Queue.take returns the error with nil ids, nil
keys and nil values, and the heap after the call is empty — the popped
id is in neither the result nor the heap, so it IS silently discarded,
contrary to the claim. -/
theorem take_fetch_fail_discard_cex :
    takeQ ⟨[([1] ++ idKey 5, [9])], [[1] ++ idKey 5]⟩ [1] 1 [Ev.sig] [5]
      = some (⟨[], [], [], true⟩, []) := by
  decide

/-- C2 (amended): when the post-pop value fetch fails, the whole take
call fails with that error, but the already-popped ids are silently
discarded: the result carries nil ids, keys and values, and the heap is
left exactly as the pops left it, with nothing returned to it. -/
theorem take_fetch_fail_discards (db : LDB) (ns : Bytes) (n : Nat)
    (evs : List Ev) (heap h2 : List Nat) (keys : List Bytes)
    (hA : awaitKeysT n evs heap [] = some (keys, h2))
    (hf : ∃ k ∈ keys, (ns ++ k) ∈ db.fails) :
    takeQ db ns n evs heap = some (⟨[], [], [], true⟩, h2) := by
  rw [takeQ, hA]
  simp only [Option.map_some', takeFromKeys, takeAux_fail db ns keys hf]

/-- Witness for the amended C2 theorem at a concrete failing read. -/
theorem take_fetch_fail_discards_witness :
    takeQ ⟨[], [idKey 3]⟩ [] 1 [Ev.sig] [3] = some (⟨[], [], [], true⟩, []) :=
  take_fetch_fail_discards ⟨[], [idKey 3]⟩ [] 1 [Ev.sig] [3] [] [idKey 3]
    (by decide) ⟨idKey 3, by decide, by decide⟩

/-- C9 counterexample: a take with n = 0 can still pop and return items —
on a schedule where one signal is selected before the zero-length check
ever passes and the timer then fires, take returns one item with a nil
error, so the result length exceeds n.  (The collected-count test in
awaitKeys runs only after an append, so it never equals 0.) -/
theorem take_exceeds_n_cex :
    (takeQ ⟨[(idKey 5, [9])], []⟩ [] 0 [Ev.sig, Ev.timeout] [5]).map
        (fun r => (r.1.err, r.1.ids.length)) = some (false, 1) := by
  decide

/-- C9 (amended, requiring n at least 1): whenever take returns a nil
error, the ids, keys and values slices have the same length, at most n;
each id is the decode of the corresponding key and each value is the
store contents at the namespace-prefixed key. -/
theorem take_ok_postcondition (db : LDB) (ns : Bytes) (n : Nat)
    (evs : List Ev) (heap h2 : List Nat) (res : TakeRes)
    (hn : 1 ≤ n)
    (ht : takeQ db ns n evs heap = some (res, h2))
    (he : res.err = false) :
    res.ids = res.keys.map keyVal ∧
    res.values = res.keys.map (fun k => storeGet db.store (ns ++ k)) ∧
    (∀ k ∈ res.keys, keyToID k = Except.ok (keyVal k)) ∧
    res.ids.length = res.keys.length ∧
    res.values.length = res.keys.length ∧
    res.keys.length ≤ n := by
  rw [takeQ] at ht
  cases hA : awaitKeysT n evs heap [] with
  | none => rw [hA] at ht; simp at ht
  | some r =>
    rw [hA] at ht
    obtain ⟨keys, hrest⟩ := r
    simp only [Option.map_some', Option.some.injEq, Prod.mk.injEq] at ht
    obtain ⟨hres, _⟩ := ht
    have hsound := awaitKeysT_sound evs n heap [] keys hrest hA
      (by intro k hk; simp at hk) (by simpa using hn)
    by_cases hfail : ∃ k ∈ keys, (ns ++ k) ∈ db.fails
    · rw [takeFromKeys, takeAux_fail db ns keys hfail] at hres
      rw [← hres] at he
      simp at he
    · push_neg at hfail
      rw [takeFromKeys, takeAux_ok db ns keys hfail hsound.1] at hres
      rw [← hres]
      refine ⟨rfl, rfl, ?_, by simp, by simp, hsound.2⟩
      intro k hk
      rw [keyToID, if_pos (hsound.1 k hk)]

/-- Witness for the amended C9 theorem at a concrete successful take. -/
theorem take_ok_postcondition_witness :
    ([3] : List Nat) = [idKey 3].map keyVal :=
  (take_ok_postcondition ⟨[(idKey 3, [7])], []⟩ [] 1 [Ev.sig] [3] []
    ⟨[3], [idKey 3], [some [7]], false⟩ (by decide) (by decide) rfl).1

/-- C4: in every reachable coordination state, the outstanding signal
units (those in the channel plus those consumed by waiters whose pop is
still pending) never exceed the number of ids in the heap, because
every make-available operation pushes before signalling; hence a waiter
can pass the wait point (a receive requires a positive signal count)
only when the heap is non-empty at that instant. -/
theorem heap_signal_invariant (s : CState) (h : QReachable s) :
    s.sig + s.pending ≤ s.heap.length ∧ (0 < s.sig → s.heap ≠ []) := by
  have main : s.sig + s.pending ≤ s.heap.length := by
    induction h with
    | refl => simp
    | tail h1 h2 ih =>
      cases h2 with
      | put id =>
        dsimp only
        rw [pushID_length]
        omega
      | recv hs =>
        dsimp only
        omega
      | pop hp =>
        dsimp only
        rw [List.length_tail]
        omega
  refine ⟨main, fun hs => ?_⟩
  have hpos : 0 < s.heap.length := by omega
  exact List.ne_nil_of_length_pos hpos

/-- Witness for C4 at the state reached by a single put. -/
theorem heap_signal_invariant_witness :
    (1 : Nat) + 0 ≤ ([5] : List Nat).length ∧ (0 < 1 → ([5] : List Nat) ≠ []) :=
  heap_signal_invariant ⟨[5], 1, 0⟩
    (Relation.ReflTransGen.single (QStep.put ⟨[], 0, 0⟩ 5))

/-- C5 counterexample: the claim quantifies over every N, but with N = 0
Take(0, wait-forever) never returns: the collected-count check in
awaitKeys runs only after a signal is received, so with no puts (no
signals ever) and a timer that never fires, the call stays blocked
(none) instead of returning the zero payloads. -/
theorem fifo_zero_blocks_cex :
    takeQ ⟨(doPuts [] ⟨[], [], 0⟩ []).store, []⟩ [] 0 []
      (doPuts [] ⟨[], [], 0⟩ []).heap = none := rfl

/-- C5 (amended, requiring N at least 1): N sequential Puts of payloads
ps into a fresh queue, followed by Take(N, wait-forever), return ids
0..N-1, their keys, and exactly the payloads in Put order, with a nil
error and an emptied heap. -/
theorem fifo_order (ns : Bytes) (ps : List Bytes) (h1 : ps ≠ [])
    (h2 : ps.length ≤ 256 ^ idWidth) :
    takeQ ⟨(doPuts ns ⟨[], [], 0⟩ ps).store, []⟩ ns ps.length
        (List.replicate ps.length Ev.sig) (doPuts ns ⟨[], [], 0⟩ ps).heap
      = some (⟨seqIDs 0 ps.length, (seqIDs 0 ps.length).map idKey,
          ps.map some, false⟩, []) := by
  have hheap : (doPuts ns ⟨[], [], 0⟩ ps).heap = seqIDs 0 ps.length := by
    have := doPuts_heap ns ps ⟨[], [], 0⟩ (by intro y hy; simp at hy)
    simpa using this
  have hne : seqIDs 0 ps.length ≠ [] := by
    cases hps : ps with
    | nil => exact absurd hps h1
    | cons p pr => simp [hps, seqIDs]
  have hlen : (seqIDs 0 ps.length).length = ps.length := seqIDs_length _ _
  have hA := awaitKeysT_all_sigs (seqIDs 0 ps.length) [] hne
  rw [hlen] at hA
  simp only [List.length_nil, Nat.zero_add, List.reverse_nil,
    List.nil_append] at hA
  rw [takeQ, hheap, hA]
  simp only [Option.map_some']
  have hmem : ∀ id ∈ seqIDs 0 ps.length, id < 256 ^ idWidth := by
    intro id hid
    have := seqIDs_mem ps.length 0 id hid
    omega
  have hok := takeAux_ok ⟨(doPuts ns ⟨[], [], 0⟩ ps).store, []⟩ ns
    ((seqIDs 0 ps.length).map idKey)
    (by intro k hk; simp)
    (by intro k hk
        obtain ⟨id, _, rfl⟩ := List.mem_map.mp hk
        exact idKey_length id)
  have hids : ((seqIDs 0 ps.length).map idKey).map keyVal = seqIDs 0 ps.length :=
    map_keyVal_idKey _ hmem
  have hvals : ((seqIDs 0 ps.length).map idKey).map
      (fun k => storeGet (doPuts ns ⟨[], [], 0⟩ ps).store (ns ++ k))
      = ps.map some := by
    rw [List.map_map]
    exact seqIDs_map_values
      (fun id => storeGet (doPuts ns ⟨[], [], 0⟩ ps).store (ns ++ idKey id)) ps 0
      (fun i hi => by
        have := doPuts_get ns ps ⟨[], [], 0⟩ i hi (by simpa using h2)
        simpa using this)
  simp only [takeFromKeys, hok, hids, hvals]

/-- Witness for the amended C5 theorem with two concrete payloads. -/
theorem fifo_order_witness :
    takeQ ⟨(doPuts [] ⟨[], [], 0⟩ [[1], [2]]).store, []⟩ [] 2
        (List.replicate 2 Ev.sig) (doPuts [] ⟨[], [], 0⟩ [[1], [2]]).heap
      = some (⟨seqIDs 0 2, (seqIDs 0 2).map idKey,
          [[1], [2]].map some, false⟩, []) :=
  fifo_order [] [[1], [2]] (by decide) (by decide)

/-- C6: on a schedule where k signals (k below n) are collected and the
single timer then fires, take unblocks at the timeout ignoring the rest
of the schedule, returns exactly the k items collected before expiry —
their ids, keys and store values — with a nil error: the partial result
is a success, not an error. -/
theorem take_timeout_partial (db : LDB) (ns : Bytes) (heap : List Nat)
    (n k : Nat) (evs : List Ev) (hk : k < n) (hh : k ≤ heap.length)
    (hnf : db.fails = []) (hid : ∀ id ∈ heap, id < 256 ^ idWidth) :
    takeQ db ns n (List.replicate k Ev.sig ++ Ev.timeout :: evs) heap
      = some (⟨heap.take k, (heap.take k).map idKey,
          (heap.take k).map (fun id => storeGet db.store (ns ++ idKey id)),
          false⟩, heap.drop k) := by
  have hA := awaitKeysT_sigs_timeout k heap [] n evs (by simpa using hk) hh
  simp only [List.reverse_nil, List.nil_append] at hA
  rw [takeQ, hA]
  simp only [Option.map_some']
  have htake : ∀ id ∈ heap.take k, id < 256 ^ idWidth :=
    fun id hid2 => hid id (List.take_subset k heap hid2)
  have hok := takeAux_ok db ns ((heap.take k).map idKey)
    (by intro k2 hk2; rw [hnf]; simp)
    (by intro k2 hk2
        obtain ⟨id, _, rfl⟩ := List.mem_map.mp hk2
        exact idKey_length id)
  have hids : ((heap.take k).map idKey).map keyVal = heap.take k :=
    map_keyVal_idKey _ htake
  have hvals : ((heap.take k).map idKey).map
      (fun k2 => storeGet db.store (ns ++ k2))
      = (heap.take k).map (fun id => storeGet db.store (ns ++ idKey id)) := by
    rw [List.map_map]
    rfl
  simp only [takeFromKeys, hok, hids, hvals]

/-- Witness for C6: one item collected, then the timer fires with n = 2
outstanding. -/
theorem take_timeout_partial_witness :
    takeQ ⟨[(idKey 4, [8])], []⟩ [] 2
        (List.replicate 1 Ev.sig ++ Ev.timeout :: []) [4]
      = some (⟨([4] : List Nat).take 1, (([4] : List Nat).take 1).map idKey,
          (([4] : List Nat).take 1).map
            (fun id => storeGet [(idKey 4, [8])] ([] ++ idKey id)),
          false⟩, ([4] : List Nat).drop 1) :=
  take_timeout_partial ⟨[(idKey 4, [8])], []⟩ [] [4] 2 1 [] (by decide)
    (by decide) rfl (by decide)

/-- C7: take with timeout 0 is non-blocking: awaitKey's explicit zero
branch either pops an immediately-available item (when a signal is
pending — and then the heap is non-empty by the push-then-signal
invariant) or returns nil at once without any timer, and a take whose
awaited key list is empty returns empty slices with a nil error. -/
theorem take_zero_nonblocking (heap : List Nat) (sig : Nat) (db : LDB)
    (ns : Bytes) (hw : 0 < sig → heap ≠ []) :
    (sig = 0 → awaitKey0 heap sig = (none, heap, sig)) ∧
    (0 < sig → ∃ id h2, heap = id :: h2 ∧
        awaitKey0 heap sig = (some (idKey id), h2, sig - 1)) ∧
    takeFromKeys db ns [] = ⟨[], [], [], false⟩ := by
  refine ⟨?_, ?_, rfl⟩
  · intro hs
    subst hs
    simp [awaitKey0]
  · intro hs
    cases hheap : heap with
    | nil => exact absurd hheap (hw hs)
    | cons id h2 =>
      exact ⟨id, h2, rfl, by simp [awaitKey0, hs]⟩

/-- Witness for C7 in the empty, unsignalled state. -/
theorem take_zero_nonblocking_witness :
    awaitKey0 ([] : List Nat) 0 = (none, [], 0) :=
  (take_zero_nonblocking [] 0 ⟨[], []⟩ []
    (fun h => absurd h (by decide))).1 rfl

/-- C8: Queue.init scans the namespace range of the store; when every
key in the range decodes, it returns a heap holding exactly the decoded
ids (as a multiset) and emits exactly one availability signal per
recovered item; on any decode error the construction aborts with the
error, yielding no queue state at all. -/
theorem init_scan_spec (ns : Bytes) (store : Store) :
    match initQ ns store with
    | Except.ok p => p.2 = (nsKeys ns store).length ∧ p.1.length = p.2 ∧
        ((p.1 : List Nat) : Multiset Nat)
          = (((nsKeys ns store).map keyVal : List Nat) : Multiset Nat) ∧
        ∀ k ∈ nsKeys ns store, keyToID k = Except.ok (keyVal k)
    | Except.error _ => ∃ k ∈ nsKeys ns store, keyToID k = Except.error () := by
  by_cases hall : ∀ k ∈ nsKeys ns store, k.length = idWidth
  · obtain ⟨H, heq, hmul⟩ := initAux_ok (nsKeys ns store) [] 0 hall
    have hmul2 : ((H : List Nat) : Multiset Nat)
        = (((nsKeys ns store).map keyVal : List Nat) : Multiset Nat) := by
      simpa using hmul
    have hcard : H.length = ((nsKeys ns store).map keyVal).length := by
      have := congrArg Multiset.card hmul2
      simpa [Multiset.coe_card] using this
    simp only [initQ, heq, Nat.zero_add]
    refine ⟨by simp, ?_, hmul2, ?_⟩
    · rw [hcard, List.length_map]
    · intro k hk
      rw [keyToID, if_pos (hall k hk)]
  · push_neg at hall
    obtain ⟨e, herr⟩ := initAux_err (nsKeys ns store) [] 0 hall
    simp only [initQ, herr]
    obtain ⟨k, hk, hne⟩ := hall
    exact ⟨k, hk, by rw [keyToID, if_neg hne]⟩

end Leviq
